import Mathlib

/-!
Verification of the etsymail extraction pipeline (src/etsymail.py).

The Python source is shallowly embedded below.  Pure helper functions are
translated one-to-one; the Gmail/BeautifulSoup collaborators are treated as
external: the Gmail listing is modelled by the page lists it returns, and the
HTML parser `BeautifulSoup(html, 'lxml')` is an opaque parameter
`parse : String → List HNode` producing the parsed node forest, over which the
source's tree operations (`find_all`, `get_text`, attribute access, `parent`)
are defined faithfully.  Character classes follow the ASCII behaviour of the
regexes involved.  Python `set` values are modelled as deduplicated lists
(`List.dedup`); all properties proved are insensitive to set iteration order.
-/

namespace Etsymail

/-! ### Character classes and substring search -/

/-- ASCII decimal digit, the `\d` class of the order regexes. -/
def isDigitCh (c : Char) : Bool := c.isDigit

/-- Word character for `\b` word boundaries: `[A-Za-z0-9_]`. -/
def isWordCh (c : Char) : Bool := c.isAlphanum || c == '_'

/-- Whether an optional character (none = string edge) is a word character. -/
def wordOpt : Option Char → Bool
  | none => false
  | some c => isWordCh c

/-- A `\b` word boundary holds between two (optional) characters iff exactly
one side is a word character. -/
def atBoundary (a b : Option Char) : Bool := wordOpt a != wordOpt b

/-- Does `needle` occur at the very start of `hay`? -/
def matchesAt : List Char → List Char → Bool
  | [], _ => true
  | _ :: _, [] => false
  | a :: as, b :: bs => a == b && matchesAt as bs

/-- Python's substring containment `needle in hay`. -/
def containsSub : List Char → List Char → Bool
  | hay, needle =>
    match hay with
    | [] => needle.isEmpty
    | _ :: t => matchesAt needle hay || containsSub t needle

/-- Python `str.lower()` (ASCII case mapping). -/
def pyLower (s : String) : String := String.mk (s.data.map Char.toLower)

/-- Python whitespace (`\s`, `str.strip`, `str.split` on ASCII text):
space, tab, newline, CR, VT, FF. -/
def isPyWs (c : Char) : Bool :=
  c == ' ' || c == '\t' || c == '\n' || c == '\r' || c == '\x0b' || c == '\x0c'

/-- Python `str.strip()`: drop leading and trailing whitespace. -/
def pyStrip (s : String) : String :=
  String.mk (((s.data.dropWhile isPyWs).reverse.dropWhile isPyWs).reverse)

/-- Python `str.endswith(suffix)`. -/
def endsWithStr (s suffix : String) : Bool :=
  matchesAt suffix.data.reverse s.data.reverse

/-- Python `sep.join(xs)`. -/
def joinSep (sep : String) : List String → String
  | [] => ""
  | [x] => x
  | x :: y :: rest => x ++ sep ++ joinSep sep (y :: rest)

/-- Python `str.split()` (no argument): maximal runs of non-whitespace,
empties dropped.  `acc` is the current word, reversed. -/
def splitWsAux (acc : List Char) : List Char → List (List Char)
  | [] => if acc.isEmpty then [] else [acc.reverse]
  | c :: rest =>
    if isPyWs c then
      if acc.isEmpty then splitWsAux [] rest else acc.reverse :: splitWsAux [] rest
    else splitWsAux (c :: acc) rest

/-- Python `str.split()` on a string. -/
def pySplitWs (s : String) : List String := (splitWsAux [] s.data).map String.mk

/-! ### `decode_part_data`: URL-safe base64 then UTF-8 with `errors='replace'`

`base64.urlsafe_b64decode` translates `-`/`_` to `+`/`/` and calls
`binascii.a2b_base64` in non-strict mode: bytes outside the alphabet are
skipped, `=` padding closes a quad of ≥ 2 data characters, and at end of
input a pending quad of 1 data character or of 2/3 data characters raises
`binascii.Error` (`invalid length` / `Incorrect padding`).  The subsequent
`.decode('utf-8', errors='replace')` never raises: each maximal subpart of an
ill-formed sequence becomes one U+FFFD. -/

inductive B64Err where
  | invalidLength
  | incorrectPadding
deriving DecidableEq

/-- Value of a base64url alphabet character (after the `-`→`+`, `_`→`/`
translation of `urlsafe_b64decode`); `none` for non-alphabet characters,
which non-strict `a2b_base64` skips. -/
def b64Val (c : Char) : Option Nat :=
  if 'A' ≤ c ∧ c ≤ 'Z' then some (c.toNat - 'A'.toNat)
  else if 'a' ≤ c ∧ c ≤ 'z' then some (c.toNat - 'a'.toNat + 26)
  else if '0' ≤ c ∧ c ≤ '9' then some (c.toNat - '0'.toNat + 52)
  else if c = '+' ∨ c = '-' then some 62
  else if c = '/' ∨ c = '_' then some 63
  else none

/-- The `a2b_base64` quad state machine (non-strict mode).  `quadPos` is the
number of data characters in the pending quad, `leftchar` the pending bits,
`pads` the count of consecutive `=` seen, `accRev` the output bytes in
reverse. -/
def b64Loop : List Char → Nat → Nat → Nat → List Nat → Except B64Err (List Nat)
  | [], 0, _, _, accRev => .ok accRev.reverse
  | [], 1, _, _, _ => .error B64Err.invalidLength
  | [], _, _, _, _ => .error B64Err.incorrectPadding
  | c :: rest, quadPos, leftchar, pads, accRev =>
    if c = '=' then
      if 2 ≤ quadPos ∧ 4 ≤ quadPos + (pads + 1) then .ok accRev.reverse
      else b64Loop rest quadPos leftchar (pads + 1) accRev
    else
      match b64Val c with
      | none => b64Loop rest quadPos leftchar pads accRev
      | some v =>
        match quadPos with
        | 0 => b64Loop rest 1 v 0 accRev
        | 1 => b64Loop rest 2 (v % 16) 0 ((leftchar * 4 + v / 16) :: accRev)
        | 2 => b64Loop rest 3 (v % 4) 0 ((leftchar * 16 + v / 4) :: accRev)
        | _ => b64Loop rest 0 0 0 ((leftchar * 64 + v) :: accRev)

/-- `base64.urlsafe_b64decode` on the UTF-8 encoding of a string.  Non-ASCII
input characters encode to bytes outside the alphabet, which non-strict mode
skips, so working directly on characters is equivalent. -/
def urlsafe_b64decode (s : String) : Except B64Err (List Nat) :=
  b64Loop s.data 0 0 0 []

/-- Is `b` a UTF-8 continuation byte? -/
def isCont (b : Nat) : Bool := 0x80 ≤ b && b ≤ 0xBF

/-- Allowed range of the second byte of a UTF-8 sequence, per first byte
(this is where over-long encodings and surrogates are rejected). -/
def sndLo (b : Nat) : Nat := if b = 0xE0 then 0xA0 else if b = 0xF0 then 0x90 else 0x80
def sndHi (b : Nat) : Nat := if b = 0xED then 0x9F else if b = 0xF4 then 0x8F else 0xBF

/-- UTF-8 decoding with `errors='replace'`: each maximal subpart of an
ill-formed sequence is replaced by a single U+FFFD, and decoding resumes at
the first offending byte.  The `fuel` argument only makes the recursion
structural: every step consumes at least one byte, so `bs.length` fuel (what
the wrapper `utf8Replace` passes) always suffices. -/
def utf8ReplaceF : Nat → List Nat → List Char
  | 0, _ => []
  | _ + 1, [] => []
  | fuel + 1, b :: rest =>
    if b < 0x80 then
      Char.ofNat b :: utf8ReplaceF fuel rest
    else if 0xC2 ≤ b ∧ b ≤ 0xDF then
      match rest with
      | b2 :: rest2 =>
        if isCont b2 then Char.ofNat ((b - 0xC0) * 64 + (b2 - 0x80)) :: utf8ReplaceF fuel rest2
        else '�' :: utf8ReplaceF fuel (b2 :: rest2)
      | [] => ['�']
    else if 0xE0 ≤ b ∧ b ≤ 0xEF then
      match rest with
      | b2 :: rest2 =>
        if sndLo b ≤ b2 ∧ b2 ≤ sndHi b then
          match rest2 with
          | b3 :: rest3 =>
            if isCont b3 then
              Char.ofNat ((b - 0xE0) * 4096 + (b2 - 0x80) * 64 + (b3 - 0x80)) ::
                utf8ReplaceF fuel rest3
            else '�' :: utf8ReplaceF fuel (b3 :: rest3)
          | [] => ['�']
        else '�' :: utf8ReplaceF fuel (b2 :: rest2)
      | [] => ['�']
    else if 0xF0 ≤ b ∧ b ≤ 0xF4 then
      match rest with
      | b2 :: rest2 =>
        if sndLo b ≤ b2 ∧ b2 ≤ sndHi b then
          match rest2 with
          | b3 :: rest3 =>
            if isCont b3 then
              match rest3 with
              | b4 :: rest4 =>
                if isCont b4 then
                  Char.ofNat ((b - 0xF0) * 262144 + (b2 - 0x80) * 4096 +
                    (b3 - 0x80) * 64 + (b4 - 0x80)) :: utf8ReplaceF fuel rest4
                else '�' :: utf8ReplaceF fuel (b4 :: rest4)
              | [] => ['�']
            else '�' :: utf8ReplaceF fuel (b3 :: rest3)
          | [] => ['�']
        else '�' :: utf8ReplaceF fuel (b2 :: rest2)
      | [] => ['�']
    else
      '�' :: utf8ReplaceF fuel rest

/-- UTF-8 decoding with `errors='replace'` (fuel instantiated). -/
def utf8Replace (bs : List Nat) : List Char := utf8ReplaceF bs.length bs

/-- `decode_part_data` (source line 92-93):
`base64.urlsafe_b64decode(data_b64.encode('utf-8')).decode('utf-8', errors='replace')`.
The base64 step can raise; the UTF-8 step with `errors='replace'` cannot. -/
def decode_part_data (data_b64 : String) : Except B64Err String :=
  (urlsafe_b64decode data_b64).map (fun bytes => String.mk (utf8Replace bytes))

/-! ### Payload tree and `iter_payload_parts`

A Gmail payload dict: `mimeType`, `headers` (only read on the top-level
payload), `body.data` (absent, or a base64url string — the empty string is
falsy in Python, like absence), and optionally a `parts` key holding the
child list (`'parts' in payload` is a key-presence test, so an empty child
list still selects the multipart branch). -/

inductive Payload where
  | mk (mimeType : String) (headers : List (String × String))
       (data : Option String) (parts : Option (List Payload))

/-- Python truthiness of the optional `body.data` field (`if data:`). -/
def dataTruthy : Option String → Bool
  | none => false
  | some d => d != ""

/-- `iter_payload_parts` (source lines 96-110).  In the multipart branch the
loop body both yields the child's own data (if truthy) and then recurses
fully into the child; for a childless child the recursive call lands in the
else-branch and yields the same data a second time.  Each yielded pair holds
the decode result (`decode_part_data` can raise, which surfaces at iteration
time and is modelled inside the pair). -/
def iter_payload_parts : Payload → List (String × Except B64Err String)
  | Payload.mk mime _ data parts =>
    match parts with
    | some ps => iterChildList ps
    | none =>
      match data with
      | some d => if d != "" then [(mime, decode_part_data d)] else []
      | none => []
where
  /-- The `for p in payload['parts']` loop body. -/
  iterChildList : List Payload → List (String × Except B64Err String)
  | [] => []
  | p :: rest =>
    (match p with
     | Payload.mk mime _ data _ =>
       match data with
       | some d => if d != "" then [(mime, decode_part_data d)] else []
       | none => []) ++ iter_payload_parts p ++ iterChildList rest

/-- Number of leaf nodes (no `parts` key) whose `body.data` is truthy —
the nodes the spec says must each contribute exactly one pair. -/
def dataLeafCount : Payload → Nat
  | Payload.mk _ _ data parts =>
    match parts with
    | some ps => countChildren ps
    | none => if dataTruthy data then 1 else 0
where
  countChildren : List Payload → Nat
  | [] => 0
  | p :: rest => dataLeafCount p + countChildren rest

/-! ### Regex engines

The source uses four patterns, embedded here as executable scanners with
Python `re` leftmost / greedy / backtracking semantics specialised to each
pattern:
  * `ORDER_RE  = \b(\d{6,14})\b`                    (finditer)
  * `Order\s*#\s*(\d{6,14})` with IGNORECASE        (finditer)
  * `EMAIL_REGEX = [A-Z0-9._%+-]+@[A-Z0-9.-]+\.[A-Z]{2,}` with IGNORECASE
  * `mailto:([^"]+)` with IGNORECASE                (search)
-/

/-- Greedy backtracking for `\d{6,14}\b` anchored at the start of `cs`:
try `k` digits, then `k-1`, …, failing below 6.  A candidate of length `k`
needs `k` digits available and a word boundary after them. -/
def tryLen (cs : List Char) : Nat → Option (List Char)
  | 0 => none
  | k + 1 =>
    if k + 1 < 6 then none
    else if (cs.take (k + 1)).length = k + 1 && (cs.take (k + 1)).all isDigitCh &&
        atBoundary (cs.take (k + 1)).getLast? ((cs.drop (k + 1)).head?) then
      some (cs.take (k + 1))
    else tryLen cs k

/-- `ORDER_RE` match attempt anchored at the start of `cs`, with `prev` the
character immediately before (for the leading `\b`). -/
def tryOrderAt (prev : Option Char) (cs : List Char) : Option (List Char) :=
  if atBoundary prev cs.head? then tryLen cs 14 else none

/-- `ORDER_RE.finditer`: scan left to right, non-overlapping; on a match of
length `ℓ` resume right after it, else advance one character.  The `fuel`
argument only makes the recursion structural: every step consumes at least
one character, so `cs.length` fuel (what the wrapper `scanOrders` passes)
always suffices. -/
def scanOrdersF : Nat → Option Char → List Char → List (List Char)
  | 0, _, _ => []
  | _ + 1, _, [] => []
  | fuel + 1, prev, c :: rest =>
    match tryOrderAt prev (c :: rest) with
    | some m => m :: scanOrdersF fuel m.getLast? (rest.drop (m.length - 1))
    | none => scanOrdersF fuel (some c) rest

/-- `ORDER_RE.finditer` (fuel instantiated). -/
def scanOrders (prev : Option Char) (cs : List Char) : List (List Char) :=
  scanOrdersF cs.length prev cs

/-- Python `\s` on ASCII text (space, tab, newline, CR, FF, VT). -/
def isSpaceCh (c : Char) : Bool :=
  c == ' ' || c == '\t' || c == '\n' || c == '\r' || c == '\x0b' || c == '\x0c'

/-- ASCII letter, the IGNORECASE `[A-Z]` class. -/
def isAlphaCh (c : Char) : Bool := c.isAlpha

/-- `Order\s*#\s*(\d{6,14})` (IGNORECASE) match attempt anchored at the start:
returns the captured digit group and the number of characters the whole match
consumed.  `\d{6,14}` is greedy and has no trailing boundary, so with more
than 14 digits available it captures the first 14. -/
def tryOrderHashAt (cs : List Char) : Option (List Char × Nat) :=
  if matchesAt ['o', 'r', 'd', 'e', 'r'] (cs.map Char.toLower) then
    let afterWord := cs.drop 5
    let ws1 := afterWord.takeWhile isSpaceCh
    match afterWord.drop ws1.length with
    | '#' :: afterHash =>
      let ws2 := afterHash.takeWhile isSpaceCh
      let digits := (afterHash.drop ws2.length).takeWhile isDigitCh
      if digits.length < 6 then none
      else
        let capture := digits.take 14
        some (capture, 5 + ws1.length + 1 + ws2.length + capture.length)
    | _ => none
  else none

/-- `finditer` for the `Order\s*#\s*(\d{6,14})` pattern: captured groups of
all non-overlapping matches, left to right (fuel as in `scanOrdersF`). -/
def scanOrderHashF : Nat → List Char → List (List Char)
  | 0, _ => []
  | _ + 1, [] => []
  | fuel + 1, c :: rest =>
    match tryOrderHashAt (c :: rest) with
    | some (capture, consumed) => capture :: scanOrderHashF fuel (rest.drop (consumed - 1))
    | none => scanOrderHashF fuel rest

/-- The `Order\s*#\s*(\d{6,14})` finditer (fuel instantiated). -/
def scanOrderHash (cs : List Char) : List (List Char) :=
  scanOrderHashF cs.length cs

/-- Local-part class `[A-Z0-9._%+-]` under IGNORECASE. -/
def isLocalCh (c : Char) : Bool :=
  c.isAlphanum || c == '.' || c == '_' || c == '%' || c == '+' || c == '-'

/-- Domain class `[A-Z0-9.-]` under IGNORECASE. -/
def isDomainCh (c : Char) : Bool := c.isAlphanum || c == '.' || c == '-'

/-- Backtracking for `\.[A-Z]{2,}` after a greedy `[A-Z0-9.-]+` that consumed
`k` characters of `rest`: if the character at index `k` is `.` followed by at
least two letters, the match is `rest.take k ++ "." ++ letters` (letters
greedy); otherwise retry with `k - 1`, failing below 1 domain character. -/
def tryTld (rest : List Char) : Nat → Option (List Char)
  | 0 => none
  | k + 1 =>
    match rest.drop (k + 1) with
    | '.' :: piece =>
      let tld := piece.takeWhile isAlphaCh
      if 2 ≤ tld.length then some (rest.take (k + 1) ++ '.' :: tld)
      else tryTld rest k
    | _ => tryTld rest k

/-- `EMAIL_REGEX` match attempt anchored at the start of `cs`.  `[A-Z0-9._%+-]+`
must be the maximal run (shorter choices put a local character where `@` is
required), then `@`, then the greedy domain with `\.[A-Z]{2,}` backtracking. -/
def emailMatchAt (cs : List Char) : Option (List Char) :=
  let lrun := cs.takeWhile isLocalCh
  if lrun.length = 0 then none
  else
    match cs.drop lrun.length with
    | '@' :: rest =>
      match tryTld rest (rest.takeWhile isDomainCh).length with
      | some dom => some (lrun ++ '@' :: dom)
      | none => none
    | _ => none

/-- `re.search(EMAIL_REGEX, ·)`: leftmost match. -/
def emailSearch : List Char → Option (List Char)
  | [] => none
  | c :: rest =>
    match emailMatchAt (c :: rest) with
    | some m => some m
    | none => emailSearch rest

/-- `re.finditer(EMAIL_REGEX, ·)`: all non-overlapping matches, left to
right (fuel as in `scanOrdersF`). -/
def emailFindAllF : Nat → List Char → List (List Char)
  | 0, _ => []
  | _ + 1, [] => []
  | fuel + 1, c :: rest =>
    match emailMatchAt (c :: rest) with
    | some m => m :: emailFindAllF fuel (rest.drop (m.length - 1))
    | none => emailFindAllF fuel rest

/-- The `EMAIL_REGEX` finditer (fuel instantiated). -/
def emailFindAll (cs : List Char) : List (List Char) :=
  emailFindAllF cs.length cs

/-- `re.search(r"mailto:([^"]+)", href, IGNORECASE)`: at the leftmost
case-insensitive occurrence of `mailto:` followed by at least one non-quote
character, capture the greedy run of non-quote characters. -/
def mailtoCapture : List Char → Option (List Char)
  | [] => none
  | c :: rest =>
    if matchesAt ['m', 'a', 'i', 'l', 't', 'o', ':'] ((c :: rest).map Char.toLower) then
      let cand := (rest.drop 6).takeWhile (fun ch => ch != '"')
      if cand.length = 0 then mailtoCapture rest else some cand
    else mailtoCapture rest

/-! ### HTML node model (the BeautifulSoup tree)

`BeautifulSoup(html, 'lxml')` itself is external; its result is a forest of
nodes over which the source only uses `find_all`, `get_text`, attribute
access, `has_attr` and `.parent`.  A top-level tag's `.parent` is the
`BeautifulSoup` document object, modelled as a synthetic `[document]`
element holding the whole forest. -/

inductive HNode where
  | text (s : String)
  | elem (tag : String) (attrs : List (String × String)) (children : List HNode)

/-- All text-node strings below a node, in document order (BeautifulSoup's
`.strings`, which `get_text` joins). -/
def nodeStrings : HNode → List String
  | HNode.text s => [s]
  | HNode.elem _ _ children => forestStrings children
where
  forestStrings : List HNode → List String
  | [] => []
  | n :: rest => nodeStrings n ++ forestStrings rest

/-- `get_text(sep)`: all descendant strings joined with `sep`
(default `sep = ""`). -/
def getText (sep : String) (n : HNode) : String :=
  joinSep sep (nodeStrings n)

/-- `get_text(sep, strip=True)`: each string stripped, empties dropped, the
rest joined with `sep`. -/
def getTextStrip (sep : String) (n : HNode) : String :=
  joinSep sep (((nodeStrings n).map pyStrip).filter (fun s => s != ""))

/-- Tag name of an element node (text nodes have none and are never returned
by `find_all`). -/
def tagOf : HNode → String
  | HNode.text _ => ""
  | HNode.elem t _ _ => t

/-- Attribute lookup `node[attr]` / `node.get(attr)`: first binding wins. -/
def attrOf (n : HNode) (key : String) : Option String :=
  match n with
  | HNode.text _ => none
  | HNode.elem _ attrs _ => (attrs.find? (fun a => a.1 == key)).map (fun a => a.2)

/-- `node.has_attr(key)`. -/
def hasAttr (n : HNode) (key : String) : Bool := (attrOf n key).isSome

/-- All element descendants of a node in document order (pre-order), each
paired with its parent node — the `find_all` traversal with `.parent`
available.  `parent` is the enclosing element, or the synthetic document
node for top-level elements. -/
def nodeElems : HNode → HNode → List (HNode × HNode)
  | _, HNode.text _ => []
  | parent, HNode.elem t a ch =>
    (HNode.elem t a ch, parent) :: forestElems (HNode.elem t a ch) ch
where
  forestElems : HNode → List HNode → List (HNode × HNode)
  | _, [] => []
  | parent, n :: rest => nodeElems parent n ++ forestElems parent rest

/-- The synthetic `BeautifulSoup` document object wrapping a parsed forest. -/
def docNode (doc : List HNode) : HNode := HNode.elem "[document]" [] doc

/-- `soup.find_all(...)` with parents: every element of the document. -/
def allElems (doc : List HNode) : List (HNode × HNode) :=
  nodeElems.forestElems (docNode doc) doc

/-- `soup.find_all('a', href=True)` with parents. -/
def anchorsWithHref (doc : List HNode) : List (HNode × HNode) :=
  (allElems doc).filter (fun p => tagOf p.1 == "a" && hasAttr p.1 "href")

/-- `soup.find_all(['a', 'button'])` with parents. -/
def anchorsAndButtons (doc : List HNode) : List (HNode × HNode) :=
  (allElems doc).filter (fun p => tagOf p.1 == "a" || tagOf p.1 == "button")

/-! ### Extraction (source lines 39-51 and 123-214) -/

/-- The `SEND_MAIL_CUES` list (source lines 39-42). -/
def SEND_MAIL_CUES : List String :=
  ["send mail", "send message", "email buyer", "contact buyer",
   "e-posta gönder", "mesaj gönder"]

/-- `EXCLUDE_ETSY_DOMAIN` (source line 51). -/
def EXCLUDE_ETSY_DOMAIN : Bool := true

/-- `valid_order_numbers_from_text` (source lines 123-129): the set of
`ORDER_RE` captures, as a deduplicated list. -/
def valid_order_numbers_from_text (text : String) : List String :=
  if text = "" then []
  else ((scanOrders none text.data).map String.mk).dedup

/-- `extract_orders` (source lines 132-146).  `parse` stands for
`BeautifulSoup(·, 'lxml')`; the HTML branch runs `ORDER_RE` over
`get_text(" ")` of the parsed document.  The incrementally-built Python set
`found` is the deduplicated concatenation of the three branches. -/
def extract_orders (parse : String → List HNode) (subject html plain : String) :
    List String :=
  ((if subject = "" then []
    else ((scanOrderHash subject.data).map String.mk) ++
      valid_order_numbers_from_text subject) ++
   (if html = "" then []
    else valid_order_numbers_from_text (getText " " (docNode (parse html)))) ++
   (if plain = "" then [] else valid_order_numbers_from_text plain)).dedup

/-- The visible text of an element as the cue check sees it:
`(el.get_text() or '').strip().lower()`. -/
def cueText (el : HNode) : String := pyLower (pyStrip (getText "" el))

/-- `any(cue in text for cue in SEND_MAIL_CUES)`. -/
def hasCue (el : HNode) : Bool :=
  SEND_MAIL_CUES.any (fun cue => containsSub (cueText el).data cue.data)

/-- `mailto:` extraction from an `href`: search `mailto:([^"]+)`, then search
`EMAIL_REGEX` inside the capture, lowercase the result. -/
def hrefMailtoEmail (href : String) : Option String :=
  (mailtoCapture href.data).bind
    (fun cand => (emailSearch cand).map (fun m => pyLower (String.mk m)))

/-- The auxiliary attributes inspected for embedded addresses. -/
def AUX_ATTRS : List String := ["data-email", "data-to", "title", "aria-label"]

/-- Emails found in the auxiliary attributes of one element
(`re.search(EMAIL_REGEX, el[attr])` for each present attribute). -/
def auxAttrEmails (el : HNode) : List String :=
  AUX_ATTRS.filterMap (fun attr =>
    (attrOf el attr).bind (fun v =>
      (emailSearch v.data).map (fun m => pyLower (String.mk m))))

/-- The cue-tier contribution of one `a[href]` element (source lines 157-170):
if its visible text contains a cue, the `mailto:` address from `href` plus
the auxiliary-attribute addresses. -/
def cueAnchorEmails (el : HNode) : List String :=
  if hasCue el then
    (match (attrOf el "href").bind hrefMailtoEmail with
     | some e => [e]
     | none => []) ++ auxAttrEmails el
  else []

/-- `' '.join(text.split())[:1500]`: whitespace-collapse then truncate. -/
def collapseTrunc (s : String) : String :=
  String.mk ((joinSep " " (pySplitWs s)).data.take 1500)

/-- The neighbourhood-tier contribution of one `a`/`button` element with its
parent (source lines 173-184): on a cue match, auxiliary-attribute addresses
plus the first address found in the parent's collapsed visible text. -/
def cueNeighborEmails (el parent : HNode) : List String :=
  if hasCue el then
    auxAttrEmails el ++
      (match emailSearch (collapseTrunc (getTextStrip " " parent)).data with
       | some m => [pyLower (String.mk m)]
       | none => [])
  else []

/-- The unconditional fallback contribution of one `a[href]` element
(source lines 187-193). -/
def fallbackAnchorEmails (el : HNode) : List String :=
  match (attrOf el "href").bind hrefMailtoEmail with
  | some e => [e]
  | none => []

/-- `extract_emails_from_html` (source lines 149-195): the three tiers,
unioned (set semantics = deduplicated concatenation). -/
def extract_emails_from_html (parse : String → List HNode) (html : String) :
    List String :=
  if html = "" then []
  else
    let doc := parse html
    (((anchorsWithHref doc).map Prod.fst).flatMap cueAnchorEmails ++
     (anchorsAndButtons doc).flatMap (fun p => cueNeighborEmails p.1 p.2) ++
     ((anchorsWithHref doc).map Prod.fst).flatMap fallbackAnchorEmails).dedup

/-- `extract_emails_from_text` (source lines 198-202). -/
def extract_emails_from_text (text : String) : List String :=
  if text = "" then []
  else ((emailFindAll text.data).map (fun m => pyLower (String.mk m))).dedup

/-- `re.fullmatch(r"\d{6,14}", o)` (source line 266): the whole string is 6
to 14 decimal digits (greedy `{6,14}` anchored on both sides accepts exactly
these strings). -/
def fullmatchOrder (o : String) : Bool :=
  decide (6 ≤ o.length) && decide (o.length ≤ 14) && o.data.all isDigitCh

/-- `filter_buyer_emails`'s per-element keep test (source lines 208-213). -/
def keepEmail (e : String) : Bool :=
  if e = "" then false
  else if EXCLUDE_ETSY_DOMAIN && endsWithStr e "@etsy.com" then false
  else true

/-- `filter_buyer_emails` (source lines 205-214): drop empties and (with
exclusion on) `*@etsy.com`, then `list(set(cleaned))`. -/
def filter_buyer_emails (emails : List String) : List String :=
  (emails.filter keepEmail).dedup

/-! ### Listing (`search_message_ids`, source lines 71-85)

The Gmail collaborator is modelled by the successive `messages.list`
responses: a list of pages of message ids, the last one carrying no
`nextPageToken`.  `MAX_MESSAGES: Optional[int]` is tested with Python
truthiness (`if MAX_MESSAGES and seen >= MAX_MESSAGES`), so both `None` and
`0` disable the cap. -/

/-- Python truthiness of `MAX_MESSAGES`. -/
def maxTruthy : Option Nat → Bool
  | none => false
  | some n => n != 0

/-- The `for m in resp.get('messages', [])` loop: ids yielded from one page,
the updated `seen` counter, and whether the generator returned (cap hit). -/
def pageYield (maxM : Option Nat) : Nat → List String → List String × Nat × Bool
  | seen, [] => ([], seen, false)
  | seen, m :: ms =>
    if maxTruthy maxM && decide (maxM.getD 0 ≤ seen + 1) then ([m], seen + 1, true)
    else
      let r := pageYield maxM (seen + 1) ms
      (m :: r.1, r.2.1, r.2.2)

/-- The `while True` paging loop. -/
def pageLoop (maxM : Option Nat) : Nat → List (List String) → List String
  | _, [] => []
  | seen, page :: rest =>
    let r := pageYield maxM seen page
    if r.2.2 then r.1 else r.1 ++ pageLoop maxM r.2.1 rest

/-- `search_message_ids` over a fixed sequence of listing responses. -/
def search_message_ids (maxM : Option Nat) (pages : List (List String)) :
    List String :=
  pageLoop maxM 0 pages

/-! ### The main loop (source lines 219-313) -/

/-- `header_get` (source lines 113-118). -/
def header_get (headers : List (String × String)) (nm : String) : Option String :=
  (headers.find? (fun h => pyLower h.1 == pyLower nm)).map (fun h => h.2)

/-- A fetched message as `messages.get(..., format='full')` returns it:
an id and the payload (whose top-level `headers` carry Subject/Date). -/
structure GMsg where
  id : String
  payload : Payload

/-- The `for mime, content in iter_payload_parts(payload)` loop of `main`
(source lines 250-254): split decoded chunks into html/text by substring
test on the mime type.  A decode error raised while iterating aborts the
message (caught by the per-message handler). -/
def collectChunks : List (String × Except B64Err String) →
    Except B64Err (List String × List String)
  | [] => .ok ([], [])
  | (mime, item) :: rest =>
    match item with
    | .error e => .error e
    | .ok content =>
      (collectChunks rest).map (fun ht =>
        if containsSub mime.data "html".data then (content :: ht.1, ht.2)
        else if containsSub mime.data "text".data then (ht.1, content :: ht.2)
        else ht)

/-- Subject of a message: `header_get(headers, 'Subject') or ''`. -/
def msgSubject (msg : GMsg) : String :=
  match msg.payload with
  | Payload.mk _ headers _ _ => (header_get headers "Subject").getD ""

/-- Date of a message: `header_get(headers, 'Date') or ''`. -/
def msgDate (msg : GMsg) : String :=
  match msg.payload with
  | Payload.mk _ headers _ _ => (header_get headers "Date").getD ""

/-- The raw email-candidate set of one message body (source lines 261-263):
`emails = set(extract_emails_from_html(html)); if not emails: emails |=
set(extract_emails_from_text(plain))`. -/
def messageEmails (parse : String → List HNode) (html plain : String) :
    List String :=
  let emails := (extract_emails_from_html parse html).dedup
  if emails = [] then (emails ++ extract_emails_from_text plain).dedup else emails

/-- The raw per-message email-candidate set, from the fetched payload.  On a
decode error the message contributes nothing. -/
def msgCandidateEmails (parse : String → List HNode) (msg : GMsg) : List String :=
  match collectChunks (iter_payload_parts msg.payload) with
  | .error _ => []
  | .ok ht =>
    messageEmails parse (joinSep "\n" ht.1) (joinSep "\n" ht.2)

/-- One accumulated result row (source lines 278-284). -/
structure Row where
  message_id : String
  date : String
  subject : String
  order_number : String
  buyer_email : String
deriving DecidableEq

/-- The run-global loop state: the accumulated rows and the `seen_pairs`
set (source lines 235-236). -/
structure LoopState where
  rows : List Row
  seen : List (String × String)
deriving DecidableEq

/-- The key a row is deduplicated by. -/
def pairOf (r : Row) : String × String := (r.order_number, r.buyer_email)

/-- The body of the nested cross-join loops (source lines 270-284) for one
`(order, email)` candidate. -/
def addPair (msgId date subject : String) (st : LoopState) (oe : String × String) :
    LoopState :=
  if oe.1 = "" ∨ oe.2 = "" then st
  else if oe ∈ st.seen then st
  else
    { rows := st.rows ++
        [{ message_id := msgId, date := date, subject := subject,
           order_number := oe.1, buyer_email := oe.2 }],
      seen := oe :: st.seen }

/-- Processing of one fetched message (source lines 241-294).  A decode
error while iterating the payload is caught by the per-message `except`
and leaves the state unchanged. -/
def processMessage (parse : String → List HNode) (st : LoopState) (msg : GMsg) :
    LoopState :=
  match collectChunks (iter_payload_parts msg.payload) with
  | .error _ => st
  | .ok ht =>
    let html := joinSep "\n" ht.1
    let plain := joinSep "\n" ht.2
    let orders := (extract_orders parse (msgSubject msg) html plain).dedup
    let emails1 := messageEmails parse html plain
    let orders2 := orders.filter fullmatchOrder
    let emails2 := (filter_buyer_emails emails1).dedup
    (orders2.flatMap (fun o => emails2.map (fun e => (o, e)))).foldl
      (addPair msg.id (msgDate msg) (msgSubject msg)) st

/-- The whole fetch loop over the listed messages. -/
def runLoop (parse : String → List HNode) (msgs : List GMsg) : LoopState :=
  msgs.foldl (processMessage parse) { rows := [], seen := [] }

/-- Outcome of a run of `main`. -/
structure RunResult where
  rows : List Row
  /-- Contents of `etsy_orders.csv` if it was written: header row then data
  rows, as lists of fields. -/
  csvFile : Option (List (List String))
  exitCode : Option Nat
deriving DecidableEq

/-- `main` after a successful authentication (source lines 227-313).
`listingFailed` is true when paging raised `HttpError`; `msgs` are the
messages fetched before that point (all listed messages on success).

The CSV-writing block (source lines 301-311) is indented eight spaces and so
belongs to the body of `except HttpError` (lines 296-298) — the comment on
line 300 does not close that block — and sits after `sys.exit(2)`.  It is
therefore dead code: on the success path the handler is skipped entirely and
control falls through to the final `print` (line 313), and on the failure
path `sys.exit(2)` raises `SystemExit` first.  No run ever writes the file,
which is why `csvFile` is `none` in both branches. -/
def mainModel (parse : String → List HNode) (listingFailed : Bool)
    (msgs : List GMsg) : RunResult :=
  let st := runLoop parse msgs
  if listingFailed then
    { rows := st.rows, csvFile := none, exitCode := some 2 }
  else
    { rows := st.rows, csvFile := none, exitCode := none }

/-! ### Concrete fixtures used by witnesses and counterexamples -/

/-- A parsed HTML body: one anchor whose visible text is a cue phrase and
whose `href` is a buyer `mailto:`. -/
def sampleTree : List HNode :=
  [HNode.elem "a" [("href", "mailto:jane@example.com")] [HNode.text "Contact Buyer"]]

/-- A stand-in for `BeautifulSoup(·, 'lxml')` producing `sampleTree`. -/
def sampleParse : String → List HNode := fun _ => sampleTree

/-- A fetched message: multipart payload whose single child is an HTML part
(`"eA=="` is base64url for `"x"`), subject carrying an order number. -/
def sampleMsg : GMsg :=
  { id := "m1",
    payload := Payload.mk "multipart/alternative"
      [("Subject", "Your Etsy order [Order #12345678] has shipped"),
       ("Date", "Mon, 6 Oct 2025 10:00:00")]
      none
      (some [Payload.mk "text/html" [] (some "eA==") none]) }

/-- An anchor whose only email lives in its `mailto:` href and whose visible
text matches no cue phrase. -/
def noCueAnchor : HNode :=
  HNode.elem "a" [("href", "mailto:Bob@Example.com")] [HNode.text "click here"]

/-- A parsed HTML body whose only email lives in a `mailto:` link with
non-cue visible text. -/
def noCueTree : List HNode := [noCueAnchor]

/-- A stand-in parser producing `noCueTree`. -/
def noCueParse : String → List HNode := fun _ => noCueTree

/-- A parsed HTML body whose only email candidate is on the excluded
domain. -/
def etsyOnlyTree : List HNode :=
  [HNode.elem "a" [("href", "mailto:support@etsy.com")] [HNode.text "click"]]

/-- A stand-in parser producing `etsyOnlyTree`. -/
def etsyOnlyParse : String → List HNode := fun _ => etsyOnlyTree

/-- A message whose body yields only the excluded-domain candidate. -/
def etsyOnlyMsg : GMsg :=
  { id := "m2",
    payload := Payload.mk "text/html" [("Subject", "Order #87654321")]
      (some "eA==") none }

/-- The single row the sample run accumulates. -/
def sampleRow : Row :=
  { message_id := "m1", date := "Mon, 6 Oct 2025 10:00:00",
    subject := "Your Etsy order [Order #12345678] has shipped",
    order_number := "12345678", buyer_email := "jane@example.com" }

/-- A multipart payload with exactly one data-carrying leaf
(`"aGk="` is base64url for `"hi"`). -/
def samplePayload : Payload :=
  Payload.mk "multipart/mixed" [] none
    (some [Payload.mk "text/plain" [] (some "aGk=") none])

/-! ### Listing lemmas (C10) -/

lemma pageYield_zero (page : List String) : ∀ seen,
    pageYield (some 0) seen page = pageYield none seen page := by
  induction page with
  | nil => intro seen; rfl
  | cons m ms ih => intro seen; simp [pageYield, maxTruthy, ih]

lemma pageLoop_zero (pages : List (List String)) : ∀ seen,
    pageLoop (some 0) seen pages = pageLoop none seen pages := by
  induction pages with
  | nil => intro seen; rfl
  | cons page rest ih => intro seen; simp [pageLoop, pageYield_zero, ih]

lemma pageYield_count (n : Nat) (page : List String) : ∀ seen, seen < n →
    (pageYield (some n) seen page).2.1 =
      seen + (pageYield (some n) seen page).1.length ∧
    (pageYield (some n) seen page).1.length ≤ n - seen ∧
    ((pageYield (some n) seen page).2.2 = false →
      (pageYield (some n) seen page).2.1 < n) := by
  induction page with
  | nil => intro seen h; simp [pageYield]; omega
  | cons m ms ih =>
    intro seen h
    by_cases hc : (maxTruthy (some n) && decide (n ≤ seen + 1)) = true
    · simp only [pageYield, Option.getD] at hc ⊢
      rw [if_pos hc]
      simp; omega
    · have h1 : seen + 1 < n := by
        simp [maxTruthy] at hc
        omega
      obtain ⟨e1, e2, e3⟩ := ih (seen + 1) h1
      simp only [pageYield, Option.getD] at hc e1 e2 e3 ⊢
      rw [if_neg hc]
      refine ⟨by simp [e1]; omega, by simp; omega, fun hst => ?_⟩
      exact e3 hst

lemma pageLoop_count (n : Nat) (pages : List (List String)) : ∀ seen, seen < n →
    (pageLoop (some n) seen pages).length ≤ n - seen := by
  induction pages with
  | nil => intro seen _; simp [pageLoop]
  | cons page rest ih =>
    intro seen h
    obtain ⟨e1, e2, e3⟩ := pageYield_count n page seen h
    by_cases hst : (pageYield (some n) seen page).2.2 = true
    · simp only [pageLoop]
      rw [if_pos hst]
      omega
    · simp only [pageLoop]
      rw [if_neg hst]
      have h2 := e3 (by simpa using hst)
      have := ih (pageYield (some n) seen page).2.1 h2
      simp only [List.length_append]
      omega

/-! ### Order-regex lemmas (C5, C9) -/

/-- The character on the left of the position where a match attempt starts:
the last character of the consumed text `pre`, or `prev` when nothing was
consumed yet. -/
def edgeBefore (prev : Option Char) (pre : List Char) : Option Char :=
  match pre.getLast? with
  | some c => some c
  | none => prev

lemma edgeBefore_cons (prev : Option Char) (c : Char) (pre : List Char) :
    edgeBefore prev (c :: pre) = edgeBefore (some c) pre := by
  cases pre with
  | nil => rfl
  | cons d pre' =>
    unfold edgeBefore
    rw [List.getLast?_cons_cons]
    cases h : (d :: pre').getLast? with
    | none =>
      exfalso
      have := List.getLast?_isSome (l := d :: pre')
      rw [h] at this
      simp at this
    | some x => rfl

/-- A decimal digit is a word character. -/
lemma isWordCh_of_isDigitCh (c : Char) (h : isDigitCh c = true) :
    isWordCh c = true := by
  simp only [isWordCh, Char.isAlphanum, Bool.or_eq_true]
  exact Or.inl (Or.inr h)

/-- What a successful `tryLen` returns: a prefix of 6 to `k` digits followed
by a word boundary. -/
lemma tryLen_some : ∀ (k : Nat) (cs m : List Char), tryLen cs k = some m →
    m = cs.take m.length ∧ 6 ≤ m.length ∧ m.length ≤ k ∧
    m.all isDigitCh = true ∧
    atBoundary m.getLast? ((cs.drop m.length).head?) = true := by
  intro k
  induction k with
  | zero => intro cs m h; exact absurd h (by simp [tryLen])
  | succ k ih =>
    intro cs m h
    unfold tryLen at h
    split_ifs at h with hlt hcond
    · obtain ⟨⟨h1, h2⟩, h3⟩ :
          ((cs.take (k + 1)).length = k + 1 ∧
            (cs.take (k + 1)).all isDigitCh = true) ∧
          atBoundary (cs.take (k + 1)).getLast?
            ((cs.drop (k + 1)).head?) = true := by
        simpa [Bool.and_eq_true] using hcond
      have hm : m = cs.take (k + 1) := by simpa using h.symm
      have hlen : m.length = k + 1 := by rw [hm]; exact h1
      refine ⟨by rw [hlen, hm], by omega, by omega, by rw [hm]; exact h2, ?_⟩
      rw [hlen, hm]
      exact h3
    · obtain ⟨g1, g2, g3, g4, g5⟩ := ih cs m h
      exact ⟨g1, g2, by omega, g4, g5⟩

/-- Membership soundness of the `ORDER_RE` scanner: every emitted match is a
run of 6 to 14 decimal digits. -/
lemma scanOrdersF_sound : ∀ (fuel : Nat) (prev : Option Char) (cs m : List Char),
    m ∈ scanOrdersF fuel prev cs →
    6 ≤ m.length ∧ m.length ≤ 14 ∧ m.all isDigitCh = true := by
  intro fuel
  induction fuel with
  | zero => intro prev cs m h; exact absurd h (by simp [scanOrdersF])
  | succ fuel ih =>
    intro prev cs m h
    cases cs with
    | nil => exact absurd h (by simp [scanOrdersF])
    | cons c rest =>
      rw [scanOrdersF] at h
      cases htry : tryOrderAt prev (c :: rest) with
      | none => rw [htry] at h; exact ih _ _ _ h
      | some m0 =>
        rw [htry] at h
        rcases List.mem_cons.mp h with h' | h'
        · unfold tryOrderAt at htry
          split_ifs at htry with hbd
          obtain ⟨_, g2, g3, g4, _⟩ := tryLen_some 14 _ _ htry
          exact h' ▸ ⟨g2, g3, g4⟩
        · exact ih _ _ _ h'

/-- `takeWhile` over a run followed by a non-matching head is the run. -/
lemma takeWhile_run (p : Char → Bool) : ∀ (run post : List Char),
    run.all p = true → (∀ c, post.head? = some c → p c = false) →
    (run ++ post).takeWhile p = run := by
  intro run
  induction run with
  | nil =>
    intro post _ hpost
    cases post with
    | nil => rfl
    | cons c t => simp [List.takeWhile, hpost c rfl]
  | cons a run' ih =>
    intro post hall hpost
    simp only [Bool.and_eq_true, List.all_cons] at hall
    simp [List.takeWhile, hall.1, ih post hall.2 hpost]

/-- Completeness of the greedy backtracking: at the start of a word-bounded
run of 6-14 digits, `tryLen` from any budget between the run length and 14
matches exactly the run. -/
lemma tryLen_complete (run post : List Char)
    (hall : run.all isDigitCh = true) (h6 : 6 ≤ run.length)
    (h14 : run.length ≤ 14) (hpost : wordOpt post.head? = false) :
    ∀ k, run.length ≤ k → k ≤ 14 → tryLen (run ++ post) k = some run := by
  have hpostd : ∀ c, post.head? = some c → isDigitCh c = false := by
    intro c hc
    by_contra hd
    have : isWordCh c = true := isWordCh_of_isDigitCh c (by
      cases hdc : isDigitCh c
      · exact absurd hdc hd
      · rfl)
    rw [hc] at hpost
    simp [wordOpt, this] at hpost
  intro k
  induction k with
  | zero => intro h0 _; omega
  | succ k ih =>
    intro hk h14'
    rcases Nat.lt_or_ge run.length (k + 1) with hlt | hge
    · -- the greedy attempt with k+1 digits fails, backtrack
      have hfail : ¬((run ++ post).take (k + 1)).length = k + 1 ∨
          ¬((run ++ post).take (k + 1)).all isDigitCh = true := by
        cases post with
        | nil =>
          left
          simp only [List.append_nil]
          rw [List.length_take]
          omega
        | cons c t =>
          right
          rw [List.take_append_eq_append_take,
            List.take_of_length_le (by omega : run.length ≤ k + 1)]
          have hc : isDigitCh c = false := hpostd c rfl
          have : (k + 1 - run.length) = (k - run.length) + 1 := by omega
          rw [this]
          simp [List.all_append, hc]
      unfold tryLen
      rw [if_neg (by omega : ¬(k + 1 < 6))]
      have hcond : ¬(((run ++ post).take (k + 1)).length = k + 1 &&
          ((run ++ post).take (k + 1)).all isDigitCh &&
          atBoundary ((run ++ post).take (k + 1)).getLast?
            (((run ++ post).drop (k + 1)).head?)) = true := by
        rcases hfail with hf | hf <;>
          · intro hcc
            simp only [Bool.and_eq_true, decide_eq_true_eq] at hcc
            exact hf (by tauto)
      rw [if_neg hcond]
      exact ih (by omega) (by omega)
    · -- k + 1 = run.length: the attempt succeeds
      have hkeq : k + 1 = run.length := by omega
      have htake : (run ++ post).take (k + 1) = run := by
        rw [hkeq]
        exact List.take_left run post
      have hdrop : (run ++ post).drop (k + 1) = post := by
        rw [hkeq]
        exact List.drop_left run post
      have hlast : ∃ d, run.getLast? = some d ∧ isDigitCh d = true := by
        cases hg : run.getLast? with
        | none =>
          exfalso
          have : run = [] := by
            cases run with
            | nil => rfl
            | cons a t => simp [List.getLast?_eq_getLast] at hg
          rw [this] at h6; simp at h6
        | some d =>
          exact ⟨d, rfl, List.all_eq_true.mp hall d (List.mem_of_mem_getLast? hg)⟩
      obtain ⟨d, hd, hdd⟩ := hlast
      unfold tryLen
      rw [if_neg (by omega : ¬(k + 1 < 6))]
      rw [if_pos]
      · rw [htake]
      · rw [htake, hdrop, hd]
        simp only [List.length_take, List.length_append, Bool.and_eq_true,
          decide_eq_true_eq]
        refine ⟨⟨by omega, hall⟩, ?_⟩
        have hb : wordOpt (some d) = true := by
          simp [wordOpt, isWordCh_of_isDigitCh d hdd]
        simp [atBoundary, hb, hpost]

/-- `getLast?` survives dropping fewer elements than the length. -/
lemma getLast?_drop_of_lt {α : Type} : ∀ (l : List α) (n : Nat), n < l.length →
    (l.drop n).getLast? = l.getLast? := by
  intro l
  induction l with
  | nil => intro n h; simp at h
  | cons a t ih =>
    intro n h
    cases n with
    | zero => rfl
    | succ m =>
      simp only [List.drop_succ_cons]
      rw [ih m (by simpa using h)]
      cases t with
      | nil => simp at h
      | cons b t' => rw [List.getLast?_cons_cons]

/-- Completeness of the `ORDER_RE` scanner: a word-bounded run of 6-14
digits anywhere in the text is emitted. -/
lemma scanOrdersF_complete : ∀ (fuel : Nat) (pre : List Char)
    (prev : Option Char) (run post : List Char),
    (pre ++ run ++ post).length ≤ fuel →
    wordOpt (edgeBefore prev pre) = false →
    run.all isDigitCh = true → 6 ≤ run.length → run.length ≤ 14 →
    wordOpt post.head? = false →
    run ∈ scanOrdersF fuel prev (pre ++ run ++ post) := by
  intro fuel
  induction fuel with
  | zero =>
    intro pre prev run post hlen _ _ h6 _ _
    exfalso
    simp only [List.length_append] at hlen
    omega
  | succ fuel ih =>
    intro pre prev run post hlen hedge hall h6 h14 hpost
    cases pre with
    | nil =>
      have hedge' : wordOpt prev = false := by
        simpa [edgeBefore] using hedge
      cases run with
      | nil => simp at h6
      | cons r run' =>
        have hrd : isDigitCh r = true := by
          simp only [List.all_cons, Bool.and_eq_true] at hall
          exact hall.1
        have hbd : atBoundary prev ((r :: (run' ++ post)).head?) = true := by
          have hrw : wordOpt (some r) = true := by
            simp [wordOpt, isWordCh_of_isDigitCh r hrd]
          simp [atBoundary, List.head?_cons, hrw, hedge']
        have htl : tryLen (r :: (run' ++ post)) 14 = some (r :: run') := by
          have := tryLen_complete (r :: run') post hall h6 h14 hpost 14 h14
            (by omega)
          simpa using this
        simp only [List.nil_append, List.cons_append]
        rw [scanOrdersF]
        unfold tryOrderAt
        rw [if_pos hbd, htl]
        exact List.mem_cons_self _ _
    | cons c pre' =>
      have hconsapp : (c :: pre') ++ run ++ post = c :: (pre' ++ run ++ post) := by
        simp
      rw [hconsapp]
      rw [scanOrdersF]
      cases htry : tryOrderAt prev (c :: (pre' ++ run ++ post)) with
      | none =>
        refine ih pre' (some c) run post ?_ ?_ hall h6 h14 hpost
        · rw [hconsapp] at hlen
          simpa using Nat.le_of_succ_le_succ (by simpa using hlen)
        · rw [← edgeBefore_cons prev c pre']
          exact hedge
      | some m =>
        -- the match m is all digits and cannot reach past the non-word
        -- character ending `pre`
        have hms : m = (c :: (pre' ++ run ++ post)).take m.length ∧
            6 ≤ m.length ∧ m.length ≤ 14 ∧ m.all isDigitCh = true := by
          unfold tryOrderAt at htry
          split_ifs at htry with hbd
          obtain ⟨g1, g2, g3, g4, _⟩ := tryLen_some 14 _ _ htry
          exact ⟨g1, g2, g3, g4⟩
        obtain ⟨hm1, hm6, hm14, hmall⟩ := hms
        have hdlast : ∃ d, (c :: pre').getLast? = some d ∧ isWordCh d = false := by
          cases hg : (c :: pre').getLast? with
          | none =>
            exfalso
            have := List.getLast?_isSome (l := c :: pre')
            rw [hg] at this
            simp at this
          | some d =>
            refine ⟨d, rfl, ?_⟩
            unfold edgeBefore at hedge
            rw [hg] at hedge
            simpa [wordOpt] using hedge
        obtain ⟨d, hd, hdw⟩ := hdlast
        have hmlt : m.length < (c :: pre').length := by
          by_contra hge
          push_neg at hge
          have hdm : d ∈ m := by
            rw [hm1, ← hconsapp, List.append_assoc,
              List.take_append_eq_append_take, List.take_of_length_le hge]
            exact List.mem_append_left _ (List.mem_of_mem_getLast? hd)
          have : isDigitCh d = true := List.all_eq_true.mp hmall d hdm
          rw [isWordCh_of_isDigitCh d this] at hdw
          exact absurd hdw (by simp)
        have hdropeq : (pre' ++ run ++ post).drop (m.length - 1) =
            ((c :: pre').drop m.length) ++ run ++ post := by
          have h1 : (c :: (pre' ++ run ++ post)).drop m.length =
              (pre' ++ run ++ post).drop (m.length - 1) := by
            obtain ⟨n, hn⟩ : ∃ n, m.length = n + 1 := ⟨m.length - 1, by omega⟩
            rw [hn]
            simp [List.drop_succ_cons]
          rw [← h1, ← hconsapp, List.append_assoc,
            List.drop_append_of_le_length (by
              simp only [List.length_cons] at hmlt ⊢; omega),
            List.append_assoc]
        show run ∈ m :: scanOrdersF fuel m.getLast?
          ((pre' ++ run ++ post).drop (m.length - 1))
        rw [hdropeq]
        refine List.mem_cons_of_mem _ ?_
        refine ih ((c :: pre').drop m.length) m.getLast? run post ?_ ?_ hall h6 h14 hpost
        · simp only [List.length_append, List.length_drop, List.length_cons] at hlen ⊢
          omega
        · have hne : (c :: pre').drop m.length ≠ [] := by
            intro hnil
            have := List.drop_eq_nil_iff.mp hnil
            omega
          unfold edgeBefore
          rw [getLast?_drop_of_lt _ _ hmlt, hd]
          simpa [wordOpt] using hdw

/-- Soundness of the `Order #` matcher: a capture is 6-14 digits. -/
lemma tryOrderHashAt_some (cs cap : List Char) (consumed : Nat)
    (h : tryOrderHashAt cs = some (cap, consumed)) :
    6 ≤ cap.length ∧ cap.length ≤ 14 ∧ cap.all isDigitCh = true := by
  simp only [tryOrderHashAt] at h
  split_ifs at h with hword
  split at h
  next afterHash heq =>
    split_ifs at h with hlen
    obtain ⟨hcap, -⟩ : cap = _ ∧ consumed = _ := by
      have := h
      simp only [Option.some.injEq, Prod.mk.injEq] at this
      exact ⟨this.1.symm, this.2.symm⟩
    push_neg at hlen
    subst hcap
    refine ⟨?_, ?_, ?_⟩
    · rw [List.length_take]
      omega
    · rw [List.length_take]
      omega
    · refine List.all_eq_true.mpr (fun x hx => ?_)
      exact List.all_eq_true.mp List.all_takeWhile x (List.take_subset _ _ hx)
  next x heq => exact absurd h (by simp)

/-- Membership soundness of the `Order #` scanner. -/
lemma scanOrderHashF_sound : ∀ (fuel : Nat) (cs m : List Char),
    m ∈ scanOrderHashF fuel cs →
    6 ≤ m.length ∧ m.length ≤ 14 ∧ m.all isDigitCh = true := by
  intro fuel
  induction fuel with
  | zero => intro cs m h; exact absurd h (by simp [scanOrderHashF])
  | succ fuel ih =>
    intro cs m h
    cases cs with
    | nil => exact absurd h (by simp [scanOrderHashF])
    | cons c rest =>
      rw [scanOrderHashF] at h
      cases htry : tryOrderHashAt (c :: rest) with
      | none => rw [htry] at h; exact ih _ _ h
      | some pr =>
        rw [htry] at h
        rcases List.mem_cons.mp h with h' | h'
        · exact h' ▸ tryOrderHashAt_some (c :: rest) pr.1 pr.2 (by
            rw [htry])
        · exact ih _ _ h'

/-- Everything `valid_order_numbers_from_text` returns is 6-14 digits. -/
lemma valid_order_numbers_sound (t : String) (o : String)
    (h : o ∈ valid_order_numbers_from_text t) :
    6 ≤ o.length ∧ o.length ≤ 14 ∧ o.data.all isDigitCh = true := by
  unfold valid_order_numbers_from_text at h
  split_ifs at h with ht
  · exact absurd h (by simp)
  · obtain ⟨m, hm, rfl⟩ := List.mem_map.mp (List.mem_dedup.mp h)
    exact scanOrdersF_sound _ _ _ _ hm

/-- Everything `extract_orders` returns is 6-14 digits (soundness over all
three branches: the `Order #` pattern and the three `ORDER_RE` scans). -/
lemma extract_orders_sound (parse : String → List HNode)
    (subject html plain : String) (o : String)
    (h : o ∈ extract_orders parse subject html plain) :
    6 ≤ o.length ∧ o.length ≤ 14 ∧ o.data.all isDigitCh = true := by
  unfold extract_orders at h
  have h' := List.mem_dedup.mp h
  rcases List.mem_append.mp h' with h1 | h1
  · rcases List.mem_append.mp h1 with h2 | h2
    · split_ifs at h2 with hs
      · exact absurd h2 (by simp)
      · rcases List.mem_append.mp h2 with h3 | h3
        · obtain ⟨m, hm, rfl⟩ := List.mem_map.mp h3
          exact scanOrderHashF_sound _ _ _ hm
        · exact valid_order_numbers_sound _ _ h3
    · split_ifs at h2 with hh
      · exact absurd h2 (by simp)
      · exact valid_order_numbers_sound _ _ h2
  · split_ifs at h1 with hp
    · exact absurd h1 (by simp)
    · exact valid_order_numbers_sound _ _ h1

/-- Completeness of `valid_order_numbers_from_text` for word-bounded runs. -/
lemma valid_order_numbers_complete (t : String) (pre run post : List Char)
    (hdecomp : t.data = pre ++ run ++ post)
    (hall : run.all isDigitCh = true) (h6 : 6 ≤ run.length)
    (h14 : run.length ≤ 14)
    (hedge : wordOpt (edgeBefore none pre) = false)
    (hpost : wordOpt post.head? = false) :
    String.mk run ∈ valid_order_numbers_from_text t := by
  have ht : t ≠ "" := by
    intro h'
    rw [h'] at hdecomp
    have := congrArg List.length hdecomp
    simp only [List.length_append] at this
    simp at this
    omega
  unfold valid_order_numbers_from_text
  rw [if_neg ht]
  refine List.mem_dedup.mpr (List.mem_map.mpr ⟨run, ?_, rfl⟩)
  unfold scanOrders
  rw [hdecomp]
  exact scanOrdersF_complete (pre ++ run ++ post).length pre none run post
    le_rfl hedge hall h6 h14 hpost

/-- A word-bounded run in the subject makes it into `extract_orders`. -/
lemma extract_orders_complete_subject (parse : String → List HNode)
    (subject html plain : String) (pre run post : List Char)
    (hdecomp : subject.data = pre ++ run ++ post)
    (hall : run.all isDigitCh = true) (h6 : 6 ≤ run.length)
    (h14 : run.length ≤ 14)
    (hedge : wordOpt (edgeBefore none pre) = false)
    (hpost : wordOpt post.head? = false) :
    String.mk run ∈ extract_orders parse subject html plain := by
  have hs : subject ≠ "" := by
    intro h'
    rw [h'] at hdecomp
    have := congrArg List.length hdecomp
    simp only [List.length_append] at this
    simp at this
    omega
  unfold extract_orders
  refine List.mem_dedup.mpr (List.mem_append.mpr (Or.inl ?_))
  refine List.mem_append.mpr (Or.inl ?_)
  rw [if_neg hs]
  exact List.mem_append.mpr (Or.inr
    (valid_order_numbers_complete subject pre run post hdecomp hall h6 h14
      hedge hpost))

/-- A word-bounded run in the plaintext body makes it into
`extract_orders`. -/
lemma extract_orders_complete_plain (parse : String → List HNode)
    (subject html plain : String) (pre run post : List Char)
    (hdecomp : plain.data = pre ++ run ++ post)
    (hall : run.all isDigitCh = true) (h6 : 6 ≤ run.length)
    (h14 : run.length ≤ 14)
    (hedge : wordOpt (edgeBefore none pre) = false)
    (hpost : wordOpt post.head? = false) :
    String.mk run ∈ extract_orders parse subject html plain := by
  have hp : plain ≠ "" := by
    intro h'
    rw [h'] at hdecomp
    have := congrArg List.length hdecomp
    simp only [List.length_append] at this
    simp at this
    omega
  unfold extract_orders
  refine List.mem_dedup.mpr (List.mem_append.mpr (Or.inr ?_))
  rw [if_neg hp]
  exact valid_order_numbers_complete plain pre run post hdecomp hall h6 h14
    hedge hpost

/-! ### Fold-invariant lemmas for the dedup loop (C4, C7) -/

/-- Cross-joining against an empty email list yields no candidate pairs. -/
lemma flatMap_nil_fun {α β : Type} (l : List α) :
    (l.flatMap fun _ => ([] : List β)) = [] := by
  induction l with
  | nil => rfl
  | cons a t ih => simp [ih]

/-- One `addPair` step preserves the dedup invariant: row keys are distinct
and every row key is recorded in `seen_pairs`. -/
lemma addPair_inv (i d s : String) (st : LoopState) (oe : String × String)
    (h1 : (st.rows.map pairOf).Nodup)
    (h2 : ∀ p ∈ st.rows.map pairOf, p ∈ st.seen) :
    ((addPair i d s st oe).rows.map pairOf).Nodup ∧
    ∀ p ∈ (addPair i d s st oe).rows.map pairOf, p ∈ (addPair i d s st oe).seen := by
  unfold addPair
  split_ifs with hempty hseen
  · exact ⟨h1, h2⟩
  · exact ⟨h1, h2⟩
  · constructor
    · rw [List.map_append]
      refine List.Nodup.append h1 (by simp [pairOf]) ?_
      intro p hp hp'
      simp [pairOf] at hp'
      exact hseen (hp' ▸ h2 p hp)
    · intro p hp
      rw [List.map_append] at hp
      rcases List.mem_append.mp hp with h | h
      · exact List.mem_cons_of_mem _ (h2 p h)
      · simp [pairOf] at h
        simp [h]

/-- The nested cross-join fold preserves the dedup invariant. -/
lemma foldl_addPair_inv (i d s : String) (l : List (String × String)) :
    ∀ st : LoopState, (st.rows.map pairOf).Nodup →
    (∀ p ∈ st.rows.map pairOf, p ∈ st.seen) →
    ((l.foldl (addPair i d s) st).rows.map pairOf).Nodup ∧
    ∀ p ∈ (l.foldl (addPair i d s) st).rows.map pairOf,
      p ∈ (l.foldl (addPair i d s) st).seen := by
  induction l with
  | nil => intro st h1 h2; exact ⟨h1, h2⟩
  | cons oe rest ih =>
    intro st h1 h2
    obtain ⟨g1, g2⟩ := addPair_inv i d s st oe h1 h2
    exact ih _ g1 g2

/-- `processMessage` preserves the dedup invariant. -/
lemma processMessage_inv (parse : String → List HNode) (st : LoopState) (msg : GMsg)
    (h1 : (st.rows.map pairOf).Nodup)
    (h2 : ∀ p ∈ st.rows.map pairOf, p ∈ st.seen) :
    (((processMessage parse st msg).rows.map pairOf).Nodup) ∧
    ∀ p ∈ (processMessage parse st msg).rows.map pairOf,
      p ∈ (processMessage parse st msg).seen := by
  unfold processMessage
  cases collectChunks (iter_payload_parts msg.payload) with
  | error e => exact ⟨h1, h2⟩
  | ok ht => exact foldl_addPair_inv _ _ _ _ st h1 h2

/-- One `addPair` step only ever appends a row whose email comes from the
candidate pair, so any predicate true of all candidate emails and of all
existing rows stays true. -/
lemma addPair_email_pred (P : String → Prop) (i d s : String) (st : LoopState)
    (oe : String × String) (hoe : P oe.2)
    (h : ∀ r ∈ st.rows, P r.buyer_email) :
    ∀ r ∈ (addPair i d s st oe).rows, P r.buyer_email := by
  unfold addPair
  split_ifs with hempty hseen
  · exact h
  · exact h
  · intro r hr
    rcases List.mem_append.mp hr with h' | h'
    · exact h r h'
    · simp at h'
      rw [h']
      exact hoe

/-- The cross-join fold keeps any email predicate that holds of every
candidate pair. -/
lemma foldl_addPair_email_pred (P : String → Prop) (i d s : String)
    (l : List (String × String)) :
    ∀ st : LoopState, (∀ oe ∈ l, P oe.2) → (∀ r ∈ st.rows, P r.buyer_email) →
    ∀ r ∈ (l.foldl (addPair i d s) st).rows, P r.buyer_email := by
  induction l with
  | nil => intro st _ h; exact h
  | cons oe rest ih =>
    intro st hl h
    exact ih _ (fun x hx => hl x (List.mem_cons_of_mem _ hx))
      (addPair_email_pred P i d s st oe (hl oe (List.mem_cons_self _ _)) h)

/-- An email kept by `filter_buyer_emails` does not end in `@etsy.com`
(domain exclusion is enabled in the source). -/
lemma keepEmail_no_etsy (e : String) (h : keepEmail e = true) :
    endsWithStr e "@etsy.com" = false := by
  unfold keepEmail at h
  split_ifs at h with h1 h2
  · simpa [EXCLUDE_ETSY_DOMAIN] using h2

/-- An email that ends in `@etsy.com` is dropped by `filter_buyer_emails`. -/
lemma keepEmail_false_of_etsy (e : String) (h : endsWithStr e "@etsy.com" = true) :
    keepEmail e = false := by
  unfold keepEmail
  split_ifs with h1 h2
  · rfl
  · rfl
  · simp [EXCLUDE_ETSY_DOMAIN, h] at h2

/-- Every row `processMessage` adds has an email surviving
`filter_buyer_emails`, hence not on the excluded domain. -/
lemma processMessage_no_etsy (parse : String → List HNode) (st : LoopState)
    (msg : GMsg) (h : ∀ r ∈ st.rows, endsWithStr r.buyer_email "@etsy.com" = false) :
    ∀ r ∈ (processMessage parse st msg).rows,
      endsWithStr r.buyer_email "@etsy.com" = false := by
  unfold processMessage
  cases collectChunks (iter_payload_parts msg.payload) with
  | error e => exact h
  | ok ht =>
    refine foldl_addPair_email_pred
      (fun e => endsWithStr e "@etsy.com" = false) _ _ _ _ st (fun oe hoe => ?_) h
    rcases List.mem_flatMap.mp hoe with ⟨o, _, hmem⟩
    rcases List.mem_map.mp hmem with ⟨e, he, hpair⟩
    have he' : keepEmail e = true := by
      have := List.mem_dedup.mp he
      exact (List.mem_filter.mp (List.mem_dedup.mp this)).2
    have : oe.2 = e := by rw [← hpair]
    rw [this]
    exact keepEmail_no_etsy e he'

/-! ### Claim theorems -/

/-- C10: for every positive cap `N` the listing yields at most `N` message
ids, while a cap of exactly `0` is Python-falsy like `None` and disables the
cap entirely instead of limiting the listing to zero ids. -/
theorem c10_cap_behaviour :
    (∀ (pages : List (List String)) (n : Nat), 0 < n →
      (search_message_ids (some n) pages).length ≤ n) ∧
    (∀ pages : List (List String),
      search_message_ids (some 0) pages = search_message_ids none pages) := by
  constructor
  · intro pages n hn
    have := pageLoop_count n pages 0 hn
    simpa [search_message_ids] using this
  · intro pages
    simp [search_message_ids, pageLoop_zero]

/-- Witness for C10 at a concrete listing: a cap of 2 over a 3-id page
yields at most 2 ids (in fact exactly 2), and a cap of 0 yields all ids. -/
theorem c10_cap_behaviour_witness :
    (search_message_ids (some 2) [["a", "b", "c"]]).length ≤ 2 ∧
    search_message_ids (some 0) [["a", "b", "c"]] = ["a", "b", "c"] := by
  constructor
  · exact c10_cap_behaviour.1 [["a", "b", "c"]] 2 (by decide)
  · rfl

/-- C6: whenever the HTML extraction yields at least one email candidate,
the per-message candidate set is exactly that HTML set and the plaintext
fallback is never consulted: the result does not depend on the plaintext
body at all. -/
theorem c6_plaintext_only_on_empty_html :
    ∀ (parse : String → List HNode) (html plain : String),
      extract_emails_from_html parse html ≠ [] →
      messageEmails parse html plain = (extract_emails_from_html parse html).dedup ∧
      ∀ plain', messageEmails parse html plain = messageEmails parse html plain' := by
  intro parse html plain h
  have hne : (extract_emails_from_html parse html).dedup ≠ [] := by
    simpa [List.dedup_eq_nil] using h
  constructor
  · simp [messageEmails, hne]
  · intro plain'
    simp [messageEmails, hne]

/-- Witness for C6: with a body whose anchor produces a candidate, the
plaintext argument (here one carrying a different address) is ignored. -/
theorem c6_plaintext_only_on_empty_html_witness :
    messageEmails sampleParse "x" "other@example.org" =
      (extract_emails_from_html sampleParse "x").dedup ∧
    messageEmails sampleParse "x" "other@example.org" =
      messageEmails sampleParse "x" "" := by
  have h := c6_plaintext_only_on_empty_html sampleParse "x" "other@example.org"
    (by decide)
  exact ⟨h.1, h.2 ""⟩

/-- C3 counterexample: the claim says malformed base64 degrades to a
best-effort decode, but `base64.urlsafe_b64decode` raises on `"abc"`
(three data characters leave an unpadded quad): `decode_part_data` is not
total under malformed base64. -/
theorem c3_decode_counterexample :
    decode_part_data "abc" = Except.error B64Err.incorrectPadding := by
  rfl

/-- C3 amended: decoding fails exactly when the base64 step fails — the
UTF-8 stage with `errors='replace'` never raises, and non-UTF-8 body bytes
degrade to replacement characters (`"/w=="` decodes the invalid byte `0xFF`
to `U+FFFD`); but malformed base64 raises and so fails the message. -/
theorem c3_decode_total_only_after_base64 :
    (∀ s : String, (decode_part_data s).isOk = (urlsafe_b64decode s).isOk) ∧
    decode_part_data "/w==" = Except.ok "�" ∧
    decode_part_data "abc" = Except.error B64Err.incorrectPadding := by
  refine ⟨fun s => ?_, rfl, rfl⟩
  unfold decode_part_data
  cases urlsafe_b64decode s <;> rfl

/-- C2 counterexample: `iter_payload_parts` on a multipart payload with a
single data-carrying leaf yields that leaf's pair twice — once from the
parent loop and once from the recursive call — not exactly once as claimed. -/
theorem c2_flattener_counterexample :
    dataLeafCount samplePayload = 1 ∧
    iter_payload_parts samplePayload =
      [("text/plain", Except.ok "hi"), ("text/plain", Except.ok "hi")] := by
  exact ⟨rfl, rfl⟩

/-- C1: the CSV-writing block of `main` is dead code (it is indented into
the `except HttpError` handler, after `sys.exit(2)`), so no run ever writes
the output table — even a successful run that accumulated rows, as the
concrete run here does. -/
theorem c1_output_table_never_written :
    (∀ (parse : String → List HNode) (listingFailed : Bool) (msgs : List GMsg),
      (mainModel parse listingFailed msgs).csvFile = none) ∧
    (mainModel sampleParse false [sampleMsg]).rows ≠ [] := by
  constructor
  · intro parse listingFailed msgs
    unfold mainModel
    by_cases h : listingFailed <;> simp [h]
  · intro h
    have : (mainModel sampleParse false [sampleMsg]).rows =
        [{ message_id := "m1", date := "Mon, 6 Oct 2025 10:00:00",
           subject := "Your Etsy order [Order #12345678] has shipped",
           order_number := "12345678", buyer_email := "jane@example.com" }] := by
      rfl
    rw [this] at h
    exact List.cons_ne_nil _ _ h

/-- C4: across any whole run, each `(order_number, buyer_email)` pair is
accepted at most once — the accumulated row list never contains two rows
with the same pair, however often a pair recurs across messages. -/
theorem c4_global_pair_uniqueness :
    ∀ (parse : String → List HNode) (msgs : List GMsg),
      ((runLoop parse msgs).rows.map pairOf).Nodup := by
  intro parse msgs
  suffices h : ∀ st : LoopState, (st.rows.map pairOf).Nodup →
      (∀ p ∈ st.rows.map pairOf, p ∈ st.seen) →
      ((msgs.foldl (processMessage parse) st).rows.map pairOf).Nodup ∧
      ∀ p ∈ (msgs.foldl (processMessage parse) st).rows.map pairOf,
        p ∈ (msgs.foldl (processMessage parse) st).seen by
    exact (h { rows := [], seen := [] } (by simp) (by simp)).1
  induction msgs with
  | nil => intro st h1 h2; exact ⟨h1, h2⟩
  | cons msg rest ih =>
    intro st h1 h2
    obtain ⟨g1, g2⟩ := processMessage_inv parse st msg h1 h2
    exact ih _ g1 g2

/-- C7: with domain exclusion enabled (as in the source), no accepted row's
buyer email ends in `@etsy.com`; and a message all of whose extracted email
candidates are on the excluded domain contributes zero rows rather than any
fallback row. -/
theorem c7_domain_exclusion :
    (∀ (parse : String → List HNode) (msgs : List GMsg) (r : Row),
      r ∈ (runLoop parse msgs).rows →
      endsWithStr r.buyer_email "@etsy.com" = false) ∧
    (∀ (parse : String → List HNode) (st : LoopState) (msg : GMsg),
      (∀ e ∈ msgCandidateEmails parse msg, endsWithStr e "@etsy.com" = true) →
      (processMessage parse st msg).rows = st.rows) := by
  constructor
  · intro parse msgs
    suffices h : ∀ st : LoopState,
        (∀ r ∈ st.rows, endsWithStr r.buyer_email "@etsy.com" = false) →
        ∀ r ∈ (msgs.foldl (processMessage parse) st).rows,
          endsWithStr r.buyer_email "@etsy.com" = false by
      exact fun r hr => h { rows := [], seen := [] } (by simp) r hr
    induction msgs with
    | nil => intro st h; exact h
    | cons msg rest ih =>
      intro st h
      exact ih _ (processMessage_no_etsy parse st msg h)
  · intro parse st msg h
    unfold msgCandidateEmails at h
    unfold processMessage
    cases hcc : collectChunks (iter_payload_parts msg.payload) with
    | error e => rfl
    | ok ht =>
      rw [hcc] at h
      have hfil : (messageEmails parse (joinSep "\n" ht.1) (joinSep "\n" ht.2)).filter
          keepEmail = [] :=
        List.filter_eq_nil_iff.mpr (fun e he => by
          simp [keepEmail_false_of_etsy e (h e he)])
      simp only [filter_buyer_emails, hfil, List.dedup_nil, List.map_nil]
      rw [flatMap_nil_fun]
      rfl

/-- Witness for C7 at concrete inputs: the accumulated row of the sample run
has a non-excluded email, and a message whose only candidate is
`support@etsy.com` contributes zero rows. -/
theorem c7_domain_exclusion_witness :
    endsWithStr "jane@example.com" "@etsy.com" = false ∧
    (processMessage etsyOnlyParse { rows := [], seen := [] } etsyOnlyMsg).rows = [] := by
  constructor
  · have hr : sampleRow ∈ (runLoop sampleParse [sampleMsg]).rows :=
      List.mem_singleton.mpr rfl
    exact c7_domain_exclusion.1 sampleParse [sampleMsg] _ hr
  · exact c7_domain_exclusion.2 etsyOnlyParse { rows := [], seen := [] } etsyOnlyMsg
      (by decide)

/-- C8: an email address reachable only through a `mailto:` hyperlink whose
visible text matches no cue phrase is still emitted (lowercased) by the HTML
email extractor, through the unconditional fallback tier that is unioned
with the cue tiers. -/
theorem c8_mailto_fallback_unconditional :
    ∀ (parse : String → List HNode) (html : String) (el par : HNode) (e : String),
      html ≠ "" →
      (el, par) ∈ anchorsWithHref (parse html) →
      (∀ cue ∈ SEND_MAIL_CUES, containsSub (cueText el).data cue.data = false) →
      (attrOf el "href").bind hrefMailtoEmail = some e →
      e ∈ extract_emails_from_html parse html := by
  intro parse html el par e hhtml hmem _hcue hmail
  unfold extract_emails_from_html
  rw [if_neg hhtml]
  refine List.mem_dedup.mpr (List.mem_append.mpr (Or.inr ?_))
  refine List.mem_flatMap.mpr ⟨el, ?_, ?_⟩
  · exact List.mem_map.mpr ⟨(el, par), hmem, rfl⟩
  · simp [fallbackAnchorEmails, hmail]

/-- Witness for C8: `click here` matches no cue, yet `Bob@Example.com` from
the `mailto:` href is emitted lowercased. -/
theorem c8_mailto_fallback_unconditional_witness :
    "bob@example.com" ∈ extract_emails_from_html noCueParse "x" := by
  refine c8_mailto_fallback_unconditional noCueParse "x" noCueAnchor
    (docNode noCueTree) "bob@example.com" (by decide) ?_ (by decide) (by rfl)
  exact List.mem_singleton.mpr rfl

/-- C5: the Order Extractor only emits digit runs of length 6 to 14 (all its
candidates are pure 6-14 digit strings), and it emits every digit run of
exactly 6-14 digits standing as a word-bounded token in the subject or the
plaintext body. -/
theorem c5_order_extractor_bounds_and_completeness :
    ∀ (parse : String → List HNode) (subject html plain : String),
      (∀ o ∈ extract_orders parse subject html plain,
        6 ≤ o.length ∧ o.length ≤ 14 ∧ o.data.all isDigitCh = true) ∧
      (∀ pre run post : List Char,
        subject.data = pre ++ run ++ post →
        run.all isDigitCh = true → 6 ≤ run.length → run.length ≤ 14 →
        wordOpt (edgeBefore none pre) = false → wordOpt post.head? = false →
        String.mk run ∈ extract_orders parse subject html plain) ∧
      (∀ pre run post : List Char,
        plain.data = pre ++ run ++ post →
        run.all isDigitCh = true → 6 ≤ run.length → run.length ≤ 14 →
        wordOpt (edgeBefore none pre) = false → wordOpt post.head? = false →
        String.mk run ∈ extract_orders parse subject html plain) := by
  intro parse subject html plain
  refine ⟨fun o ho => extract_orders_sound parse subject html plain o ho,
    fun pre run post h1 h2 h3 h4 h5 h6 =>
      extract_orders_complete_subject parse subject html plain pre run post
        h1 h2 h3 h4 h5 h6,
    fun pre run post h1 h2 h3 h4 h5 h6 =>
      extract_orders_complete_plain parse subject html plain pre run post
        h1 h2 h3 h4 h5 h6⟩

/-- Witness for C5 at concrete inputs: the word-bounded run `1234567` in the
subject `"ref 1234567 ok"` is emitted, and the emitted candidate is 7 digits
long; an embedded 15-digit run (`"id 123456789012345 x"` as plaintext) is
never emitted. -/
theorem c5_order_extractor_witness :
    "1234567" ∈ extract_orders sampleParse "ref 1234567 ok" "" "" ∧
    6 ≤ ("1234567" : String).length ∧
    (∀ o ∈ extract_orders sampleParse "" "" "id 123456789012345 x", False) := by
  have h := c5_order_extractor_bounds_and_completeness sampleParse
    "ref 1234567 ok" "" ""
  refine ⟨?_, ?_, ?_⟩
  · exact h.2.1 "ref ".data "1234567".data " ok".data rfl (by decide)
      (by decide) (by decide) (by decide) (by decide)
  · have hm : "1234567" ∈ extract_orders sampleParse "ref 1234567 ok" "" "" :=
      h.2.1 "ref ".data "1234567".data " ok".data rfl (by decide)
        (by decide) (by decide) (by decide) (by decide)
    exact (h.1 "1234567" hm).1
  · intro o ho
    have : extract_orders sampleParse "" "" "id 123456789012345 x" = [] := by rfl
    rw [this] at ho
    exact absurd ho (by simp)

/-- C9: every Order Extractor candidate already fully matches the strict
6-14-digit pattern, so the Pair Filter's re-validation
(`re.fullmatch(r"\d{6,14}", o)`, source line 266) removes nothing. -/
theorem c9_revalidation_is_identity :
    ∀ (parse : String → List HNode) (subject html plain : String),
      (extract_orders parse subject html plain).filter fullmatchOrder =
        extract_orders parse subject html plain := by
  intro parse subject html plain
  refine List.filter_eq_self.mpr (fun o ho => ?_)
  obtain ⟨h1, h2, h3⟩ := extract_orders_sound parse subject html plain o ho
  unfold fullmatchOrder
  rw [decide_eq_true h1, decide_eq_true h2, h3]
  rfl

end Etsymail
